import Mathlib

/-
Verification of the distributed vector-search coordination layer found in
docs/course/examples/distributed_examples.cpp and
docs/course/examples/advanced_distributed.cpp: the sharding strategies, the
distributed index's merge of per-shard search results, the batched write
dispatch, the adaptive load balancer, the failure detector and the
checkpoint manager.  Each definition is a shallow embedding of the
corresponding C++ function; C++ doubles are modeled as exact rationals,
machine integers as naturals with explicit wrap-around where it matters.
-/

--==============================================================================
-- Search results and the merge in DistributedIndex::search
-- (distributed_examples.cpp, lines 294-348)
--==============================================================================

/-- One (key, distance) pair as produced by a shard search.  `distance` is a
C++ double, modeled as an exact rational. -/
structure SearchResult where
  key : Nat
  distance : ℚ
deriving DecidableEq

/-- Insert one element into a list that is ascending by key.  Helper for
`sortByKey`. -/
def insertByKey (a : SearchResult) : List SearchResult → List SearchResult
  | [] => [a]
  | b :: rest => if a.key ≤ b.key then a :: b :: rest else b :: insertByKey a rest

/-- The `std::sort` with comparator `a.key < b.key` (line 324).  Insertion
sort is a deterministic refinement of it: ascending by key, with elements of
equal key kept in their incoming relative order. -/
def sortByKey : List SearchResult → List SearchResult
  | [] => []
  | a :: rest => insertByKey a (sortByKey rest)

/-- Continuation of `dedupByKey` once an element with key `k` has been kept:
adjacent elements whose key equals the last kept key are dropped, any other
element is kept and opens a new group. -/
def dedupAux (k : Nat) : List SearchResult → List SearchResult
  | [] => []
  | b :: rest => if b.key = k then dedupAux k rest else b :: dedupAux b.key rest

/-- The `std::unique` with predicate `a.key == b.key` (lines 326-330):
from every run of adjacent elements with equal key, only the first-seen one
is kept. -/
def dedupByKey : List SearchResult → List SearchResult
  | [] => []
  | a :: rest => a :: dedupAux a.key rest

/-- Insert one element into a list that is ascending by distance.  Helper for
`sortByDist`. -/
def insertByDist (a : SearchResult) : List SearchResult → List SearchResult
  | [] => [a]
  | b :: rest =>
    if a.distance ≤ b.distance then a :: b :: rest else b :: insertByDist a rest

/-- Ascending sort by distance, the order targeted by the
`std::partial_sort` with comparator `a.distance < b.distance`
(lines 333-337). -/
def sortByDist : List SearchResult → List SearchResult
  | [] => []
  | a :: rest => insertByDist a (sortByDist rest)

/-- The concatenated (line 317-321), key-sorted (line 324), key-deduplicated
(lines 326-330) union of the per-shard result lists. -/
def dedupedUnion (shardResults : List (List SearchResult)) : List SearchResult :=
  dedupByKey (sortByKey shardResults.flatten)

/-- The whole merge of `DistributedIndex::search` (lines 317-341):
concatenate, sort by key, remove adjacent equal-key duplicates, partially
sort by distance and truncate to the first `k`.  The
`std::partial_sort` + `resize` pair is modeled as a full distance sort
followed by `take k`, which is the code's behavior whenever
`k ≤ (dedupedUnion shardResults).length`; when the union is smaller than
`k` the C++ call `std::partial_sort(begin, begin + k, end)` has its middle
iterator past `end()` and its precondition is violated. -/
def mergeShardResults (shardResults : List (List SearchResult)) (k : Nat) :
    List SearchResult :=
  (sortByDist (dedupedUnion shardResults)).take k

/-- Precondition of `std::partial_sort(first, middle, last)` as called on
line 333 with `middle = begin() + k`: the middle iterator must not lie past
`last`. -/
def middleIterWithinRange (k : Nat) (l : List SearchResult) : Prop :=
  k ≤ l.length

--==============================================================================
-- RangeSharding (distributed_examples.cpp, lines 172-211)
--==============================================================================

/-- The `ranges_` vector built by the `RangeSharding` constructor
(lines 182-190): entry `i` is `(min_key, max_key, shard_id)` with
`min_key = i * (total_keys / num_shards)`,
`max_key = total_keys` for the last shard and `(i+1) * keys_per_shard`
otherwise, and `shard_id = i`. -/
def rangesFor (numShards totalKeys : Nat) : List (Nat × Nat × Nat) :=
  (List.range numShards).map (fun i =>
    (i * (totalKeys / numShards),
     if i = numShards - 1 then totalKeys else (i + 1) * (totalKeys / numShards),
     i))

/-- Membership of `key` in the half-open interval of range entry `i`. -/
def inRange (numShards totalKeys i key : Nat) : Prop :=
  i * (totalKeys / numShards) ≤ key ∧
    key < (if i = numShards - 1 then totalKeys
           else (i + 1) * (totalKeys / numShards))

/-- Function `RangeSharding::shard_id` (lines 192-199): linear scan for the first
range containing the key, falling back to the last range's shard id. -/
def rangeShardId (numShards totalKeys key : Nat) : Nat :=
  match (rangesFor numShards totalKeys).find?
      (fun r => decide (r.1 ≤ key) && decide (key < r.2.1)) with
  | some r => r.2.2
  | none => ((rangesFor numShards totalKeys).getLastD (0, 0, 0)).2.2

--==============================================================================
-- List update helper (models `shards_[i]` subscript assignment)
--==============================================================================

/-- Replace the element at position `i` by `f` of it; out-of-range indices
leave the list unchanged (the C++ callers only use in-range ids). -/
def updateAt {α : Type} (i : Nat) (f : α → α) : List α → List α
  | [] => []
  | a :: rest =>
    match i with
    | 0 => f a :: rest
    | j + 1 => a :: updateAt j f rest

--==============================================================================
-- AdaptiveLoadBalancer (advanced_distributed.cpp, lines 396-478)
--==============================================================================

/-- Per-shard statistics (`ShardStats`, lines 397-403).  `active_requests`,
`total_requests` are C++ uint64 counters and `error_count` a size_t, modeled
as naturals; `avg_latency_ms` is a double, modeled as a rational. -/
structure ShardStats where
  shard_id : Nat
  active_requests : Nat
  total_requests : Nat
  avg_latency_ms : ℚ
  error_count : Nat
deriving DecidableEq

/-- Read access `shards_[i]`; the default is irrelevant for in-range ids. -/
def statsAt (l : List ShardStats) (i : Nat) : ShardStats :=
  l.getD i ⟨0, 0, 0, 0, 0⟩

/-- The constructor (lines 410-414): one zeroed record per shard with
`shard_id = i`. -/
def mkBalancer (numShards : Nat) : List ShardStats :=
  (List.range numShards).map (fun i => ⟨i, 0, 0, 0, 0⟩)

/-- The score of line 429: `active_requests + avg_latency_ms / 10`. -/
def score (s : ShardStats) : ℚ :=
  (s.active_requests : ℚ) + s.avg_latency_ms / 10

/-- One iteration of the scan in `select_shard` (lines 424-435).  The
accumulator is `(best_shard, best_score)`; `none` stands for the initial
`std::numeric_limits<double>::max()`, which every actual score undercuts. -/
def selectStep (acc : Nat × Option ℚ) (s : ShardStats) : Nat × Option ℚ :=
  match acc with
  | (_, none) => (s.shard_id, some (score s))
  | (j, some b) => if score s < b then (s.shard_id, some (score s)) else (j, some b)

/-- Function `AdaptiveLoadBalancer::select_shard` (lines 417-438): ascending scan,
strict improvement only, so the first shard attaining the minimum score
wins; `best_shard` starts at 0. -/
def selectShard (shards : List ShardStats) : Nat :=
  (shards.foldl selectStep (0, none)).1

/-- Function `record_request_start` (lines 440-443): uint64 increments, with the
2^64 wrap made explicit. -/
def recordRequestStart (shards : List ShardStats) (i : Nat) : List ShardStats :=
  updateAt i (fun s =>
    { s with
      active_requests := (s.active_requests + 1) % 2 ^ 64,
      total_requests := (s.total_requests + 1) % 2 ^ 64 }) shards

/-- Function `record_request_end` (lines 445-456): `fetch_sub(1)` on the uint64
active counter (wrap at 2^64 made explicit), exponential moving average
`old * 0.9 + latency * 0.1` on the latency, error count incremented exactly
when `success` is false. -/
def recordRequestEnd (shards : List ShardStats) (i : Nat) (latency : ℚ)
    (success : Bool) : List ShardStats :=
  updateAt i (fun s =>
    { s with
      active_requests := (s.active_requests + (2 ^ 64 - 1)) % 2 ^ 64,
      avg_latency_ms := s.avg_latency_ms * (9 / 10) + latency * (1 / 10),
      error_count := if success then s.error_count else s.error_count + 1 }) shards

--==============================================================================
-- FailureDetector (advanced_distributed.cpp, lines 152-247)
--==============================================================================

/-- Struct `FailureDetector::NodeStatus` (lines 154-159); timestamps are naturals
(milliseconds). -/
structure NodeStatus where
  last_heartbeat : Nat
  is_alive : Bool
  failure_count : Nat
deriving DecidableEq

/-- Detector state: the node table (`nodes_`, an address-keyed map modeled
as an association list) together with the log of confirmed-failure callback
invocations (`on_failure_` calls), in order. -/
structure DetectorState (Addr : Type) where
  nodes : List (Addr × NodeStatus)
  fired : List Addr
deriving DecidableEq

/-- Fresh detector: empty node table, no callback fired yet. -/
def initDetector {Addr : Type} : DetectorState Addr :=
  ⟨[], []⟩

/-- Assignment `nodes_[address] = \x7b...\x7d`: insert or overwrite in the association
list. -/
def upsertNode {Addr : Type} [DecidableEq Addr] (a : Addr) (v : NodeStatus) :
    List (Addr × NodeStatus) → List (Addr × NodeStatus)
  | [] => [(a, v)]
  | (b, w) :: rest =>
    if a = b then (a, v) :: rest else (b, w) :: upsertNode a v rest

/-- Function `FailureDetector::add_node` at time `t` (lines 178-187): register (or
re-register) the address as alive with a fresh heartbeat and zero failure
count. -/
def fdAddNode {Addr : Type} [DecidableEq Addr] (t : Nat) (a : Addr)
    (s : DetectorState Addr) : DetectorState Addr :=
  { s with nodes := upsertNode a ⟨t, true, 0⟩ s.nodes }

/-- Node-table part of `heartbeat`: if the address is registered, refresh
its heartbeat, mark it alive and reset the failure count; otherwise leave
the table unchanged. -/
def hbUpdate {Addr : Type} [DecidableEq Addr] (t : Nat) (a : Addr) :
    List (Addr × NodeStatus) → List (Addr × NodeStatus)
  | [] => []
  | (b, w) :: rest =>
    if a = b then (b, ⟨t, true, 0⟩) :: rest else (b, w) :: hbUpdate t a rest

/-- Function `FailureDetector::heartbeat` at time `t` (lines 189-198). -/
def fdHeartbeat {Addr : Type} [DecidableEq Addr] (t : Nat) (a : Addr)
    (s : DetectorState Addr) : DetectorState Addr :=
  { s with nodes := hbUpdate t a s.nodes }

/-- The timeout test of line 229: `elapsed > heartbeat_timeout_` (natural
subtraction, so a heartbeat from the future never counts as expired). -/
def hbExpired (timeout t : Nat) (w : NodeStatus) : Bool :=
  timeout < t - w.last_heartbeat

/-- Per-node effect of one pass of `detect_loop` (lines 229-243): only a
node that is expired AND still alive is touched — it is marked dead and its
failure count is incremented. -/
def tickNode (timeout t : Nat) (w : NodeStatus) : NodeStatus :=
  if hbExpired timeout t w && w.is_alive then
    ⟨w.last_heartbeat, false, w.failure_count + 1⟩
  else w

/-- Whether the pass fires the confirmed-failure callback for a node
(line 237): the node is expired and alive, and the incremented failure
count reaches 3. -/
def tickFires (timeout t : Nat) (w : NodeStatus) : Bool :=
  hbExpired timeout t w && w.is_alive && decide (3 ≤ w.failure_count + 1)

/-- One full detection pass of `detect_loop` at time `t` (lines 223-244):
every node is updated by `tickNode`, and the callback log is extended by
the nodes for which the confirmed-failure branch runs, in table order. -/
def fdTick {Addr : Type} (timeout t : Nat) (s : DetectorState Addr) :
    DetectorState Addr :=
  { nodes := s.nodes.map (fun p => (p.1, tickNode timeout t p.2)),
    fired := s.fired ++ (s.nodes.filter (fun p => tickFires timeout t p.2)).map
      (fun p => p.1) }

/-- The detector states reachable by any interleaving of `add_node`,
`heartbeat` and detection passes, at arbitrary times. -/
inductive Reach {Addr : Type} [DecidableEq Addr] (timeout : Nat) :
    DetectorState Addr → Prop
  | init : Reach timeout initDetector
  | add {s : DetectorState Addr} (t : Nat) (a : Addr) :
      Reach timeout s → Reach timeout (fdAddNode t a s)
  | hb {s : DetectorState Addr} (t : Nat) (a : Addr) :
      Reach timeout s → Reach timeout (fdHeartbeat t a s)
  | tick {s : DetectorState Addr} (t : Nat) :
      Reach timeout s → Reach timeout (fdTick timeout t s)

--==============================================================================
-- CheckpointManager (advanced_distributed.cpp, lines 253-390)
--==============================================================================

/-- Checkpoint-manager state: the retained checkpoint records (represented
by their ids, in creation order — the path and timestamp are functions of
the id) and the set of checkpoint files currently on disk (represented by
the id they were saved under). -/
structure CPState where
  cps : List Nat
  files : List Nat
deriving DecidableEq

/-- Fresh manager: no records, no files. -/
def initCP : CPState :=
  ⟨[], []⟩

/-- The id allocation of lines 307-308: one past the last retained record's
id, or 1 when the list is empty. -/
def cpNextId (s : CPState) : Nat :=
  match s.cps.getLast? with
  | none => 1
  | some l => l + 1

/-- Function `cleanup_old` (lines 380-389): while more records are retained than
`max_checkpoints`, drop the front record and delete its file. -/
def cleanupOld (maxCp : Nat) : List Nat → List Nat → List Nat × List Nat
  | [], files => ([], files)
  | c :: rest, files =>
    if maxCp < (c :: rest).length then cleanupOld maxCp rest (files.erase c)
    else (c :: rest, files)

/-- Function `create_checkpoint` (lines 304-338) in the case the shard save
succeeds: allocate the next id, write the file, append the record, then
prune with `cleanup_old`. -/
def createCheckpoint (maxCp : Nat) (s : CPState) : CPState :=
  let id := cpNextId s
  let r := cleanupOld maxCp (s.cps ++ [id]) (s.files ++ [id])
  ⟨r.1, r.2⟩

--==============================================================================
-- ShardNode and DistributedIndex write paths
-- (distributed_examples.cpp, lines 52-108 and 239-291)
--==============================================================================

/-- Function `ShardNode::add` (lines 68-72): the engine's add runs (its state
transition is kept) but its outcome is discarded and `true` is returned.
The underlying Vector Index Engine is abstract: any state type `σ` with any
transition function returning a success flag. -/
def shardNodeAdd {σ : Type} (engineAdd : σ → Nat → List ℚ → σ × Bool)
    (st : σ) (key : Nat) (vec : List ℚ) : σ × Bool :=
  ((engineAdd st key vec).1, true)

/-- Function `ShardNode::add_batch` (lines 75-79): same shape — the engine's batch
add runs, its outcome is discarded, `true` is returned. -/
def shardNodeAddBatch {σ : Type}
    (engineAddBatch : σ → List (Nat × List ℚ) → σ × Bool)
    (st : σ) (batch : List (Nat × List ℚ)) : σ × Bool :=
  ((engineAddBatch st batch).1, true)

/-- An engine whose add always reports failure, for exercising the error
path. -/
def failingEngineAdd : Unit → Nat → List ℚ → Unit × Bool :=
  fun _ _ _ => ((), false)

/-- The group-by-shard partition of `DistributedIndex::add_batch`
(lines 250-255): item `i` goes to group `strategy key`, appended in input
order. -/
def groupsOf (strategy : Nat → Nat) (numShards : Nat)
    (items : List (Nat × List ℚ)) : List (List (Nat × List ℚ)) :=
  items.foldl (fun gs it => updateAt (strategy it.1) (fun g => g ++ [it]) gs)
    (List.replicate numShards [])

/-- The per-future results of `add_batch` (lines 258-284): one dispatch per
non-empty group, in ascending shard order; `f i g` is the value the shard
`i` future returns for group `g`. -/
def dispatchResults (strategy : Nat → Nat) (numShards : Nat)
    (items : List (Nat × List ℚ)) (f : Nat → List (Nat × List ℚ) → Bool) :
    List Bool :=
  (List.range numShards).filterMap (fun i =>
    if (groupsOf strategy numShards items).getD i [] = [] then none
    else some (f i ((groupsOf strategy numShards items).getD i [])))

/-- Function `DistributedIndex::add_batch` (lines 245-291): every future is waited
on (`future.get()`, lines 282-284) but its value is discarded, and the
function returns `true` (line 290). -/
def distAddBatch (strategy : Nat → Nat) (numShards : Nat)
    (items : List (Nat × List ℚ)) (f : Nat → List (Nat × List ℚ) → Bool) :
    Bool :=
  (dispatchResults strategy numShards items f).foldl (fun acc _ => acc) true

/-- Four shards with active requests [3, 1, 2, 0], equal latency 5.0 and
shard ids equal to their positions — the load-balancer state of the spec's
selection example. -/
def lbExample : List ShardStats :=
  [⟨0, 3, 0, 5, 0⟩, ⟨1, 1, 0, 5, 0⟩, ⟨2, 2, 0, 5, 0⟩, ⟨3, 0, 0, 5, 0⟩]

--==============================================================================
-- Theorems
--==============================================================================

/-- A fold that ignores its elements returns its initial accumulator;
models the `future.get()` loop whose values are discarded. -/
theorem foldl_discard_eq_init (l : List Bool) (b : Bool) :
    l.foldl (fun acc _ => acc) b = b := by
  induction l generalizing b with
  | nil => rfl
  | cons x xs ih => simp only [List.foldl_cons]; exact ih b

/-- Claim C2: the merge of `DistributedIndex::search` concatenates the
per-shard lists, sorts ascending by key, drops adjacent equal-key
duplicates keeping the first-seen entry, sorts the result ascending by
distance and truncates to `k`; on shard results [(1, 1.0), (2, 0.5)] and
[(2, 0.5), (3, 2.0)] with k = 2 it yields [(2, 0.5), (1, 1.0)]. -/
theorem mergeShardResults_example :
    mergeShardResults [[⟨1, 1⟩, ⟨2, 1/2⟩], [⟨2, 1/2⟩, ⟨3, 2⟩]] 2 =
      [⟨2, 1/2⟩, ⟨1, 1⟩] := by
  norm_num [mergeShardResults, dedupedUnion, sortByKey, insertByKey, dedupByKey,
    dedupAux, sortByDist, insertByDist]

/-- Claim C3: with one probed shard returning the single result
(key 1, distance 0.5) and k = 2, the deduplicated union has exactly one
entry, fewer than k — so the `std::partial_sort(begin, begin + k, end)`
call of `DistributedIndex::search` (line 333) runs with its middle iterator
past `end()`, violating its precondition (undefined behavior) instead of
returning the union unchanged. -/
theorem search_partial_sort_middle_out_of_range :
    (dedupedUnion [[⟨1, 1/2⟩]]).length = 1 ∧
      ¬ middleIterWithinRange 2 (dedupedUnion [[⟨1, 1/2⟩]]) := by
  constructor
  · norm_num [dedupedUnion, sortByKey, insertByKey, dedupByKey, dedupAux]
  · norm_num [middleIterWithinRange, dedupedUnion, sortByKey, insertByKey,
      dedupByKey, dedupAux]

/-- Claim C1: a node registered at t = 0 with timeout 5000 ms that receives
no heartbeat, observed by detection passes at t = 6000, 7000, 8000 (each
past the timeout).  The spec says the confirmed-failure callback has fired
exactly once after the third pass; in the code the `is_alive` guard stops
`failure_count` at 1, the `failure_count >= 3` branch never runs, and the
callback log stays empty. -/
theorem failureDetector_confirmed_callback_never_fires :
    fdTick 5000 8000 (fdTick 5000 7000 (fdTick 5000 6000
        (fdAddNode 0 (1 : Nat) initDetector))) =
      ⟨[(1, ⟨0, false, 1⟩)], []⟩ := by
  decide

/-- Claim C4 (counterexample): with one shard, a strategy sending every key
to shard 0, a single-item batch and a shard dispatch that fails, the single
non-empty group's dispatch returns `false`, yet
`DistributedIndex::add_batch` returns `true` — the claimed overall-failure
report does not happen. -/
theorem distAddBatch_true_despite_failed_group :
    dispatchResults (fun _ => 0) 1 [(5, [])] (fun _ _ => false) = [false] ∧
      distAddBatch (fun _ => 0) 1 [(5, [])] (fun _ _ => false) = true := by
  constructor
  · rfl
  · rfl

/-- Claim C4 (amended): `DistributedIndex::add_batch` dispatches one
`add_batch` per non-empty per-shard group and waits for every future, but
discards the futures' values and returns `true` unconditionally — a failed
group is not reflected in the return value. -/
theorem distAddBatch_always_true (strategy : Nat → Nat) (numShards : Nat)
    (items : List (Nat × List ℚ)) (f : Nat → List (Nat × List ℚ) → Bool) :
    distAddBatch strategy numShards items f = true :=
  foldl_discard_eq_init (dispatchResults strategy numShards items f) true

/-- Claim C9 (counterexample): with an engine whose add reports failure,
`ShardNode::add` still returns `true` — the engine failure is swallowed,
not surfaced. -/
theorem shardNodeAdd_true_despite_engine_failure :
    (failingEngineAdd () 1 []).2 = false ∧
      (shardNodeAdd failingEngineAdd () 1 []).2 = true :=
  ⟨rfl, rfl⟩

/-- Claim C9 (amended): `ShardNode::add` and `ShardNode::add_batch` run the
engine's transition but always return `true`, whatever success flag the
engine produced. -/
theorem shardNode_add_always_reports_success (σ : Type)
    (engineAdd : σ → Nat → List ℚ → σ × Bool) (st : σ) (key : Nat)
    (vec : List ℚ) (engineAddBatch : σ → List (Nat × List ℚ) → σ × Bool)
    (st2 : σ) (batch : List (Nat × List ℚ)) :
    (shardNodeAdd engineAdd st key vec).2 = true ∧
      (shardNodeAdd engineAdd st key vec).1 = (engineAdd st key vec).1 ∧
      (shardNodeAddBatch engineAddBatch st2 batch).2 = true ∧
      (shardNodeAddBatch engineAddBatch st2 batch).1 =
        (engineAddBatch st2 batch).1 :=
  ⟨rfl, rfl, rfl, rfl⟩

/-- Any entry of an upserted node table is either the upserted pair or an
entry of the original table. -/
theorem mem_upsertNode {Addr : Type} [DecidableEq Addr] (a : Addr)
    (v : NodeStatus) (l : List (Addr × NodeStatus)) (p : Addr × NodeStatus)
    (hp : p ∈ upsertNode a v l) : p = (a, v) ∨ p ∈ l := by
  induction l with
  | nil => simpa [upsertNode] using hp
  | cons q rest ih =>
    obtain ⟨b, w⟩ := q
    by_cases h : a = b
    · simp only [upsertNode, if_pos h, List.mem_cons] at hp
      rcases hp with h1 | h2
      · exact Or.inl h1
      · exact Or.inr (List.mem_cons_of_mem _ h2)
    · simp only [upsertNode, if_neg h, List.mem_cons] at hp
      rcases hp with h1 | h2
      · exact Or.inr (by rw [h1]; exact List.mem_cons_self _ _)
      · rcases ih h2 with h3 | h4
        · exact Or.inl h3
        · exact Or.inr (List.mem_cons_of_mem _ h4)

/-- Any entry of a heartbeat-updated table either carries the freshly reset
status or is an entry of the original table. -/
theorem mem_hbUpdate {Addr : Type} [DecidableEq Addr] (t : Nat) (a : Addr)
    (l : List (Addr × NodeStatus)) (p : Addr × NodeStatus)
    (hp : p ∈ hbUpdate t a l) : p.2 = ⟨t, true, 0⟩ ∨ p ∈ l := by
  induction l with
  | nil => simp [hbUpdate] at hp
  | cons q rest ih =>
    obtain ⟨b, w⟩ := q
    by_cases h : a = b
    · simp only [hbUpdate, if_pos h, List.mem_cons] at hp
      rcases hp with h1 | h2
      · exact Or.inl (by simp [h1])
      · exact Or.inr (List.mem_cons_of_mem _ h2)
    · simp only [hbUpdate, if_neg h, List.mem_cons] at hp
      rcases hp with h1 | h2
      · exact Or.inr (by rw [h1]; exact List.mem_cons_self _ _)
      · rcases ih h2 with h3 | h4
        · exact Or.inl h3
        · exact Or.inr (List.mem_cons_of_mem _ h4)

/-- A detection pass preserves the per-node invariant "alive implies zero
failure count, and failure count at most one". -/
theorem tickNode_preserves_inv (timeout t : Nat) (w : NodeStatus)
    (h : (w.is_alive = true → w.failure_count = 0) ∧ w.failure_count ≤ 1) :
    ((tickNode timeout t w).is_alive = true →
        (tickNode timeout t w).failure_count = 0) ∧
      (tickNode timeout t w).failure_count ≤ 1 := by
  unfold tickNode
  by_cases hc : (hbExpired timeout t w && w.is_alive) = true
  · have halive : w.is_alive = true := by
      rcases (Bool.and_eq_true _ _).mp hc with ⟨h1, h2⟩; exact h2
    have hcount : w.failure_count = 0 := h.1 halive
    rw [if_pos hc]
    constructor
    · intro hfalse; cases hfalse
    · simp [hcount]
  · rw [if_neg hc]; exact h

/-- Claim C10: in every state of the failure detector reachable by any
sequence of `add_node`, `heartbeat` and detection-pass steps at arbitrary
times, every registered node satisfies: `is_alive` implies
`failure_count = 0`, and `failure_count` never exceeds 1 (the count is
incremented only on an alive-to-dead transition and every transition back
to alive resets it to 0). -/
theorem failureDetector_alive_count_invariant {Addr : Type}
    [DecidableEq Addr] {timeout : Nat} {s : DetectorState Addr}
    (h : Reach timeout s) :
    ∀ a w, (a, w) ∈ s.nodes →
      (w.is_alive = true → w.failure_count = 0) ∧ w.failure_count ≤ 1 := by
  induction h with
  | init => intro a w hm; simp [initDetector] at hm
  | add t a0 _ ih =>
    intro a w hm
    rcases mem_upsertNode a0 ⟨t, true, 0⟩ _ (a, w) hm with h1 | h2
    · cases h1; exact ⟨fun _ => rfl, Nat.zero_le 1⟩
    · exact ih a w h2
  | hb t a0 _ ih =>
    intro a w hm
    rcases mem_hbUpdate t a0 _ (a, w) hm with h1 | h2
    · rw [show w = ⟨t, true, 0⟩ from h1]
      exact ⟨fun _ => rfl, Nat.zero_le 1⟩
    · exact ih a w h2
  | tick t _ ih =>
    intro a w hm
    simp only [fdTick, List.mem_map] at hm
    obtain ⟨q, hq, heq⟩ := hm
    have hw : w = tickNode timeout t q.2 := by
      have h2 := congrArg Prod.snd heq; simp at h2; exact h2.symm
    subst hw
    exact tickNode_preserves_inv timeout t q.2 (ih q.1 q.2 hq)

/-- Witness for C10: the invariant instantiated at the concrete reachable
state obtained by registering node 1 at time 0 with timeout 5000. -/
theorem failureDetector_alive_count_invariant_witness :
    ((⟨0, true, 0⟩ : NodeStatus).is_alive = true →
        (⟨0, true, 0⟩ : NodeStatus).failure_count = 0) ∧
      (⟨0, true, 0⟩ : NodeStatus).failure_count ≤ 1 :=
  failureDetector_alive_count_invariant
    (Reach.add 0 1 (@Reach.init Nat _ 5000)) 1 ⟨0, true, 0⟩ (by decide)

/-- Contiguous id runs are strictly increasing. -/
theorem pairwise_lt_range' (k a : Nat) :
    (List.range' a k).Pairwise (· < ·) := by
  induction k generalizing a with
  | zero => simp
  | succ k ih =>
    rw [show List.range' a (k + 1) = a :: List.range' (a + 1) k from rfl]
    refine List.pairwise_cons.mpr ⟨?_, ih (a + 1)⟩
    intro b hb
    have hle := (List.mem_range'_1.mp hb).1
    omega

/-- Last element of a non-empty contiguous run. -/
theorem getLast?_range' (k a : Nat) :
    (List.range' a (k + 1)).getLast? = some (a + k) := by
  induction k generalizing a with
  | zero => rfl
  | succ k ih =>
    rw [show List.range' a (k + 2) = a :: (a + 1) :: List.range' (a + 2) k
        from rfl]
    rw [List.getLast?_cons_cons]
    rw [show (a + 1) :: List.range' (a + 2) k = List.range' (a + 1) (k + 1)
        from rfl]
    rw [ih (a + 1)]
    congr 1
    omega

/-- Function `cleanup_old` leaves a list that is already within the limit alone. -/
theorem cleanupOld_of_le (m : Nat) (cps files : List Nat)
    (h : cps.length ≤ m) : cleanupOld m cps files = (cps, files) := by
  cases cps with
  | nil => rfl
  | cons c rest =>
    unfold cleanupOld
    rw [if_neg (Nat.not_lt.mpr h)]

/-- Function `cleanup_old` on a list exceeding the limit by at most one evicts
exactly the front record and deletes its file. -/
theorem cleanupOld_evict_one (m c : Nat) (rest files : List Nat)
    (hrest : rest.length ≤ m) (hover : m < (c :: rest).length) :
    cleanupOld m (c :: rest) files = (rest, files.erase c) := by
  unfold cleanupOld
  rw [if_pos hover]
  exact cleanupOld_of_le m rest (files.erase c) hrest

/-- After any number of successful `create_checkpoint` calls, the retained
records form a contiguous run of at most `max_checkpoints` ids and the set
of files on disk matches the retained records exactly. -/
theorem cpInvariant_iterate (m n : Nat) :
    ∃ a k, k ≤ m ∧
      ((createCheckpoint m)^[n] initCP).cps = List.range' a k ∧
      ((createCheckpoint m)^[n] initCP).files =
        ((createCheckpoint m)^[n] initCP).cps := by
  induction n with
  | zero => exact ⟨1, 0, Nat.zero_le m, rfl, rfl⟩
  | succ n ih =>
    obtain ⟨a, k, hk, hcps, hfiles⟩ := ih
    rw [Function.iterate_succ_apply']
    have hfiles2 :
        ((createCheckpoint m)^[n] initCP).files = List.range' a k := by
      rw [hfiles, hcps]
    cases k with
    | zero =>
      have hid : cpNextId ((createCheckpoint m)^[n] initCP) = 1 := by
        unfold cpNextId
        rw [hcps]
        rfl
      have hstate : createCheckpoint m ((createCheckpoint m)^[n] initCP) =
          ⟨(cleanupOld m [1] [1]).1, (cleanupOld m [1] [1]).2⟩ := by
        simp only [createCheckpoint]
        rw [hid, hcps, hfiles2]
        rfl
      rw [hstate]
      cases m with
      | zero =>
        rw [cleanupOld_evict_one 0 1 [] [1] (by simp) (by simp)]
        exact ⟨1, 0, Nat.le_refl 0, rfl, rfl⟩
      | succ m2 =>
        rw [cleanupOld_of_le (m2 + 1) [1] [1] (by simp)]
        exact ⟨1, 1, by omega, by simp [List.range'], rfl⟩
    | succ k2 =>
      have hid : cpNextId ((createCheckpoint m)^[n] initCP) = a + k2 + 1 := by
        unfold cpNextId
        rw [hcps, getLast?_range']
      have hconcat : List.range' a (k2 + 1) ++ [a + k2 + 1] =
          List.range' a (k2 + 2) := by
        have hc := @List.range'_concat 1 a (k2 + 1)
        rw [hc]
        congr 2
        omega
      have hstate : createCheckpoint m ((createCheckpoint m)^[n] initCP) =
          ⟨(cleanupOld m (List.range' a (k2 + 2)) (List.range' a (k2 + 2))).1,
           (cleanupOld m (List.range' a (k2 + 2)) (List.range' a (k2 + 2))).2⟩ := by
        simp only [createCheckpoint]
        rw [hid, hcps, hfiles2, hconcat]
      rw [hstate]
      by_cases hfit : k2 + 2 ≤ m
      · rw [cleanupOld_of_le m (List.range' a (k2 + 2)) _
          (by simp [List.length_range']; omega)]
        exact ⟨a, k2 + 2, hfit, rfl, rfl⟩
      · have hcons : List.range' a (k2 + 2) =
            a :: List.range' (a + 1) (k2 + 1) := rfl
        rw [hcons]
        rw [cleanupOld_evict_one m a (List.range' (a + 1) (k2 + 1)) _
          (by simp [List.length_range']; omega)
          (by simp [List.length_range']; omega)]
        rw [List.erase_cons_head]
        exact ⟨a + 1, k2 + 1, by omega, rfl, rfl⟩

/-- Claim C8: over every sequence of successful `create_checkpoint` calls,
the retained checkpoint ids are strictly increasing, the retained list
never holds more than `max_checkpoints` records, and the files on disk are
exactly the retained records' files (evicted records lose both record and
file); in particular with `max_checkpoints = 2`, creating checkpoints
1, 2, 3 leaves exactly records {2, 3} and files {2, 3} — checkpoint 1's
file is deleted. -/
theorem checkpoint_retention :
    (∀ m n : Nat,
        (((createCheckpoint m)^[n] initCP).cps.Pairwise (· < ·)) ∧
        ((createCheckpoint m)^[n] initCP).cps.length ≤ m ∧
        ((createCheckpoint m)^[n] initCP).files =
          ((createCheckpoint m)^[n] initCP).cps) ∧
      (createCheckpoint 2)^[3] initCP = ⟨[2, 3], [2, 3]⟩ := by
  constructor
  · intro m n
    obtain ⟨a, k, hk, hcps, hfiles⟩ := cpInvariant_iterate m n
    refine ⟨?_, ?_, hfiles⟩
    · rw [hcps]; exact pairwise_lt_range' k a
    · rw [hcps]; simp [List.length_range']; exact hk
  · decide

/-- The scan predicate of `RangeSharding::shard_id` holds exactly on ranges
containing the key. -/
theorem rangePred_eq_true_iff (key : Nat) (r : Nat × Nat × Nat) :
    (decide (r.1 ≤ key) && decide (key < r.2.1)) = true ↔
      r.1 ≤ key ∧ key < r.2.1 := by
  simp

/-- Reading `getLastD` of a list ending in `x` is `x`. -/
theorem getLastD_append_single {α : Type} (l : List α) (x d : α) :
    (l ++ [x]).getLastD d = x := by
  induction l generalizing d with
  | nil => rfl
  | cons a t ih =>
    show ((a :: (t ++ [x]))).getLastD d = x
    rw [List.getLastD_cons]
    exact ih a

/-- Every key below the total maps into at least one constructor range. -/
theorem inRange_exists (N M key : Nat) (hN : 1 ≤ N) (hkey : key < M) :
    ∃ i, i < N ∧ inRange N M i key := by
  by_cases hz : M / N = 0
  · refine ⟨N - 1, by omega, ?_, ?_⟩
    · rw [hz]; omega
    · rw [if_pos rfl]; exact hkey
  · have hq := Nat.div_add_mod key (M / N)
    by_cases hqN : key / (M / N) < N - 1
    · refine ⟨key / (M / N), lt_of_lt_of_le hqN (Nat.sub_le N 1), ?_, ?_⟩
      · exact Nat.div_mul_le_self key (M / N)
      · rw [if_neg (Nat.ne_of_lt hqN)]
        have hmod : key % (M / N) < M / N :=
          Nat.mod_lt key (Nat.pos_of_ne_zero hz)
        calc key = (M / N) * (key / (M / N)) + key % (M / N) := hq.symm
          _ < (M / N) * (key / (M / N)) + M / N :=
              Nat.add_lt_add_left hmod _
          _ = (key / (M / N) + 1) * (M / N) := by ring
    · refine ⟨N - 1, by omega, ?_, ?_⟩
      · calc (N - 1) * (M / N) ≤ key / (M / N) * (M / N) :=
              Nat.mul_le_mul_right _ (Nat.le_of_not_lt hqN)
          _ ≤ key := Nat.div_mul_le_self key (M / N)
      · rw [if_pos rfl]; exact hkey

/-- Two distinct constructor ranges cannot both contain a key: the
intervals are pairwise disjoint. -/
theorem inRange_disjoint (N M i j key : Nat) (hij : i < j) (hj : j < N)
    (h1 : inRange N M i key) (h2 : inRange N M j key) : False := by
  have hne : i ≠ N - 1 := by omega
  have h1b : key < (i + 1) * (M / N) := by
    have hb := h1.2; rw [if_neg hne] at hb; exact hb
  have hle : (i + 1) * (M / N) ≤ j * (M / N) :=
    Nat.mul_le_mul_right _ (by omega)
  exact Nat.lt_irrefl key (lt_of_lt_of_le h1b (hle.trans h2.1))

/-- The max bound of every constructor range is at most the total key
count. -/
theorem range_max_le_total (N M i : Nat) (hi : i < N) :
    (if i = N - 1 then M else (i + 1) * (M / N)) ≤ M := by
  by_cases h : i = N - 1
  · rw [if_pos h]
  · rw [if_neg h]
    calc (i + 1) * (M / N) ≤ N * (M / N) :=
          Nat.mul_le_mul_right _ (by omega)
      _ = M / N * N := Nat.mul_comm N (M / N)
      _ ≤ M := Nat.div_mul_le_self M N

/-- Claim C5: for `RangeSharding` built with `N ≥ 1` shards over `M` total
keys, every key in `[0, M)` lies in exactly one of the `N` contiguous
constructor ranges and `shard_id` returns a shard whose range contains it;
every key `≥ M` falls outside all ranges and is deterministically assigned
to the last shard, index `N - 1`. -/
theorem rangeSharding_partition (N M key : Nat) (hN : 1 ≤ N) :
    (key < M →
      (∃! i, i < N ∧ inRange N M i key) ∧
      rangeShardId N M key < N ∧ inRange N M (rangeShardId N M key) key) ∧
    (M ≤ key → rangeShardId N M key = N - 1) := by
  constructor
  · intro hkey
    obtain ⟨i0, hi0, hin0⟩ := inRange_exists N M key hN hkey
    have huniq : ∃! i, i < N ∧ inRange N M i key := by
      refine ⟨i0, ⟨hi0, hin0⟩, ?_⟩
      intro j hj
      rcases Nat.lt_trichotomy j i0 with h | h | h
      · exact absurd (inRange_disjoint N M j i0 key h hi0 hj.2 hin0) id
      · exact h
      · exact absurd (inRange_disjoint N M i0 j key h hj.1 hin0 hj.2) id
    refine ⟨huniq, ?_⟩
    have hememb : (i0 * (M / N),
        if i0 = N - 1 then M else (i0 + 1) * (M / N), i0) ∈
          rangesFor N M :=
      List.mem_map.mpr ⟨i0, List.mem_range.mpr hi0, rfl⟩
    have hpe : (decide ((i0 * (M / N),
        if i0 = N - 1 then M else (i0 + 1) * (M / N), i0).1 ≤ key) &&
        decide (key < (i0 * (M / N),
          if i0 = N - 1 then M else (i0 + 1) * (M / N), i0).2.1)) = true := by
      rw [rangePred_eq_true_iff]
      exact hin0
    cases hfind : (rangesFor N M).find?
        (fun r => decide (r.1 ≤ key) && decide (key < r.2.1)) with
    | none =>
      exact absurd hpe (List.find?_eq_none.mp hfind _ hememb)
    | some r =>
      have hid : rangeShardId N M key = r.2.2 := by
        unfold rangeShardId
        rw [hfind]
      have hpr := List.find?_some hfind
      have hmem := List.mem_of_find?_eq_some hfind
      obtain ⟨i, hiN, hfi⟩ := List.mem_map.mp hmem
      have hiN2 : i < N := List.mem_range.mp hiN
      have hr22 : r.2.2 = i := by rw [hfi.symm]
      have hinr : inRange N M i key := by
        have hp2 := (rangePred_eq_true_iff key r).mp hpr
        constructor
        · have := hp2.1; rw [hfi.symm] at this; exact this
        · have := hp2.2; rw [hfi.symm] at this; exact this
      rw [hid, hr22]
      exact ⟨hiN2, hinr⟩
  · intro hkey
    have hnone : (rangesFor N M).find?
        (fun r => decide (r.1 ≤ key) && decide (key < r.2.1)) = none := by
      rw [List.find?_eq_none]
      intro r hr
      obtain ⟨i, hiN, hfi⟩ := List.mem_map.mp hr
      have hiN2 : i < N := List.mem_range.mp hiN
      intro hp
      have hp2 := (rangePred_eq_true_iff key r).mp hp
      have hmax : r.2.1 ≤ M := by
        rw [hfi.symm]
        exact range_max_le_total N M i hiN2
      omega
    have hid : rangeShardId N M key =
        ((rangesFor N M).getLastD (0, 0, 0)).2.2 := by
      unfold rangeShardId
      rw [hnone]
    rw [hid]
    obtain ⟨N2, hN2⟩ : ∃ N2, N = N2 + 1 := ⟨N - 1, by omega⟩
    subst hN2
    have hlast : rangesFor (N2 + 1) M =
        (List.range N2).map (fun i =>
          (i * (M / (N2 + 1)),
           if i = N2 + 1 - 1 then M else (i + 1) * (M / (N2 + 1)), i)) ++
        [(N2 * (M / (N2 + 1)),
          if N2 = N2 + 1 - 1 then M else (N2 + 1) * (M / (N2 + 1)), N2)] := by
      unfold rangesFor
      rw [List.range_succ, List.map_append]
      rfl
    rw [hlast, getLastD_append_single]
    simp

/-- Witness for C5: the partition theorem applied at N = 2 shards over
M = 5 keys, with key 3 (inside [0, 5)) and key 7 (outside, mapped to the
last shard). -/
theorem rangeSharding_partition_witness :
    (rangeShardId 2 5 3 < 2 ∧ inRange 2 5 (rangeShardId 2 5 3) 3) ∧
      rangeShardId 2 5 7 = 2 - 1 :=
  ⟨((rangeSharding_partition 2 5 3 (by decide)).1 (by decide)).2,
   (rangeSharding_partition 2 5 7 (by decide)).2 (by decide)⟩

/-- Reading position `k + 1` of a cons cell skips the head. -/
theorem statsAt_cons_succ (s : ShardStats) (t : List ShardStats) (k : Nat) :
    statsAt (s :: t) (k + 1) = statsAt t k := by
  simp [statsAt]

/-- An in-range read of the stats table is a member of it. -/
theorem statsAt_mem (l : List ShardStats) (k : Nat) (hk : k < l.length) :
    statsAt l k ∈ l := by
  induction l generalizing k with
  | nil => simp at hk
  | cons a t ih =>
    cases k with
    | zero => exact List.mem_cons_self _ _
    | succ k2 =>
      rw [statsAt_cons_succ]
      exact List.mem_cons_of_mem _ (ih k2 (by simp at hk; omega))

/-- Behavior of the `select_shard` scan over the remaining shards, given a
current best `(j0, b0)`: if no remaining score beats `b0` the accumulator
survives; otherwise the scan ends on the first remaining shard whose score
is minimal among the remaining shards (and beats `b0`). -/
theorem foldl_selectStep_spec (t : List ShardStats) :
    ∀ (j0 : Nat) (b0 : ℚ),
      ((∀ u ∈ t, b0 ≤ score u) →
        t.foldl selectStep (j0, some b0) = (j0, some b0)) ∧
      ((∃ u ∈ t, score u < b0) →
        ∃ i, i < t.length ∧
          t.foldl selectStep (j0, some b0) =
            ((statsAt t i).shard_id, some (score (statsAt t i))) ∧
          score (statsAt t i) < b0 ∧
          (∀ k, k < t.length → score (statsAt t i) ≤ score (statsAt t k)) ∧
          (∀ k, k < t.length → k < i →
            score (statsAt t i) < score (statsAt t k))) := by
  induction t with
  | nil =>
    intro j0 b0
    constructor
    · intro _; rfl
    · rintro ⟨u, hu, _⟩; exact absurd hu (List.not_mem_nil u)
  | cons s t ih =>
    intro j0 b0
    by_cases hs : score s < b0
    · have hsel : selectStep (j0, some b0) s = (s.shard_id, some (score s)) := by
        simp [selectStep, hs]
      constructor
      · intro hall
        exact absurd hs (not_lt.mpr (hall s (List.mem_cons_self s t)))
      · intro _
        by_cases ht : ∃ u ∈ t, score u < score s
        · obtain ⟨i, hi, heq, hlt, hmin, hfirst⟩ :=
            (ih s.shard_id (score s)).2 ht
          refine ⟨i + 1, by simp; omega, ?_, ?_, ?_, ?_⟩
          · rw [List.foldl_cons, hsel, statsAt_cons_succ]
            exact heq
          · rw [statsAt_cons_succ]; exact lt_trans hlt hs
          · intro k hk
            cases k with
            | zero => rw [statsAt_cons_succ]; exact le_of_lt hlt
            | succ k2 =>
              rw [statsAt_cons_succ, statsAt_cons_succ]
              exact hmin k2 (by simp at hk; omega)
          · intro k hk hki
            cases k with
            | zero => rw [statsAt_cons_succ]; exact hlt
            | succ k2 =>
              rw [statsAt_cons_succ, statsAt_cons_succ]
              exact hfirst k2 (by simp at hk; omega) (by omega)
        · push_neg at ht
          have hfold := (ih s.shard_id (score s)).1 ht
          refine ⟨0, by simp, ?_, hs, ?_, ?_⟩
          · rw [List.foldl_cons, hsel, hfold]; rfl
          · intro k hk
            cases k with
            | zero => exact le_refl _
            | succ k2 =>
              rw [statsAt_cons_succ]
              exact ht (statsAt t k2) (statsAt_mem t k2 (by simp at hk; omega))
          · intro k hk hki
            exact absurd hki (Nat.not_lt_zero k)
    · have hsel : selectStep (j0, some b0) s = (j0, some b0) := by
        simp [selectStep, hs]
      constructor
      · intro hall
        rw [List.foldl_cons, hsel]
        exact (ih j0 b0).1 (fun u hu => hall u (List.mem_cons_of_mem s hu))
      · rintro ⟨u, hu, hub⟩
        have hut : u ∈ t := by
          rcases List.mem_cons.mp hu with h | h
          · rw [h] at hub; exact absurd hub hs
          · exact h
        obtain ⟨i, hi, heq, hlt, hmin, hfirst⟩ :=
          (ih j0 b0).2 ⟨u, hut, hub⟩
        refine ⟨i + 1, by simp; omega, ?_, ?_, ?_, ?_⟩
        · rw [List.foldl_cons, hsel, statsAt_cons_succ]
          exact heq
        · rw [statsAt_cons_succ]; exact hlt
        · intro k hk
          cases k with
          | zero =>
            rw [statsAt_cons_succ]
            exact le_of_lt (lt_of_lt_of_le hlt (not_lt.mp hs))
          | succ k2 =>
            rw [statsAt_cons_succ, statsAt_cons_succ]
            exact hmin k2 (by simp at hk; omega)
        · intro k hk hki
          cases k with
          | zero =>
            rw [statsAt_cons_succ]
            exact lt_of_lt_of_le hlt (not_lt.mp hs)
          | succ k2 =>
            rw [statsAt_cons_succ, statsAt_cons_succ]
            exact hfirst k2 (by simp at hk; omega) (by omega)

/-- Claim C6: on every load-balancer state with at least one shard (and
shard ids equal to positions, as the constructor establishes and the
operations preserve), `select_shard` returns an in-range index whose score
`active_requests + avg_latency_ms / 10` is minimal, and every
strictly-smaller index has a strictly larger score — ties go to the lowest
index. -/
theorem selectShard_spec (l : List ShardStats) (hne : l ≠ [])
    (hid : ∀ i, i < l.length → (statsAt l i).shard_id = i) :
    selectShard l < l.length ∧
    (∀ k, k < l.length →
      score (statsAt l (selectShard l)) ≤ score (statsAt l k)) ∧
    (∀ k, k < l.length → k < selectShard l →
      score (statsAt l (selectShard l)) < score (statsAt l k)) := by
  cases l with
  | nil => exact absurd rfl hne
  | cons s t =>
    have hstart : (s :: t).foldl selectStep (0, none) =
        t.foldl selectStep (s.shard_id, some (score s)) := by
      rw [List.foldl_cons]; rfl
    by_cases ht : ∃ u ∈ t, score u < score s
    · obtain ⟨i, hi, heq, hlt, hmin, hfirst⟩ :=
        (foldl_selectStep_spec t s.shard_id (score s)).2 ht
      have hsel : selectShard (s :: t) = (statsAt t i).shard_id := by
        unfold selectShard
        rw [hstart, heq]
      have hsid : (statsAt t i).shard_id = i + 1 := by
        have h2 := hid (i + 1) (by simp; omega)
        rw [statsAt_cons_succ] at h2
        exact h2
      rw [hsel, hsid]
      refine ⟨by simp; omega, ?_, ?_⟩
      · intro k hk
        rw [statsAt_cons_succ]
        cases k with
        | zero => exact le_of_lt hlt
        | succ k2 =>
          rw [statsAt_cons_succ]
          exact hmin k2 (by simp at hk; omega)
      · intro k hk hki
        rw [statsAt_cons_succ]
        cases k with
        | zero => exact hlt
        | succ k2 =>
          rw [statsAt_cons_succ]
          exact hfirst k2 (by simp at hk; omega) (by omega)
    · push_neg at ht
      have hfold := (foldl_selectStep_spec t s.shard_id (score s)).1 ht
      have hsel : selectShard (s :: t) = s.shard_id := by
        unfold selectShard
        rw [hstart, hfold]
      have hsid : s.shard_id = 0 := hid 0 (by simp)
      rw [hsel, hsid]
      refine ⟨by simp, ?_, ?_⟩
      · intro k hk
        cases k with
        | zero => exact le_refl _
        | succ k2 =>
          rw [statsAt_cons_succ]
          exact ht (statsAt t k2) (statsAt_mem t k2 (by simp at hk; omega))
      · intro k hk hki
        exact absurd hki (Nat.not_lt_zero k)

/-- Witness for C6: on four shards with active requests [3, 1, 2, 0] and
equal latencies, `select_shard` returns index 3, and the selection theorem
applies. -/
theorem selectShard_spec_witness :
    lbExample ≠ [] ∧ selectShard lbExample = 3 ∧
      (selectShard lbExample < lbExample.length ∧
        (∀ k, k < lbExample.length →
          score (statsAt lbExample (selectShard lbExample)) ≤
            score (statsAt lbExample k)) ∧
        (∀ k, k < lbExample.length → k < selectShard lbExample →
          score (statsAt lbExample (selectShard lbExample)) <
            score (statsAt lbExample k))) := by
  refine ⟨by decide, ?_, selectShard_spec lbExample (by decide) ?_⟩
  · norm_num [selectShard, selectStep, score, lbExample]
  · intro i hi
    simp [lbExample] at hi
    interval_cases i <;> rfl

/-- Function `updateAt` preserves the list length. -/
theorem length_updateAt {α : Type} (i : Nat) (f : α → α) (l : List α) :
    (updateAt i f l).length = l.length := by
  induction l generalizing i with
  | nil => cases i <;> rfl
  | cons a t ih =>
    cases i with
    | zero => rfl
    | succ j => simp [updateAt, ih j]

/-- Reading the updated position returns the updated element. -/
theorem getD_updateAt_self {α : Type} (i : Nat) (f : α → α) (l : List α)
    (d : α) (hi : i < l.length) :
    (updateAt i f l).getD i d = f (l.getD i d) := by
  induction l generalizing i with
  | nil => simp at hi
  | cons a t ih =>
    cases i with
    | zero => rfl
    | succ j =>
      simp only [updateAt, List.getD_cons_succ]
      exact ih j (by simp at hi; omega)

/-- Reading any other position is unaffected by the update. -/
theorem getD_updateAt_ne {α : Type} (i j : Nat) (f : α → α) (l : List α)
    (d : α) (hne : j ≠ i) :
    (updateAt i f l).getD j d = l.getD j d := by
  induction l generalizing i j with
  | nil => cases i <;> rfl
  | cons a t ih =>
    cases i with
    | zero =>
      cases j with
      | zero => exact absurd rfl hne
      | succ j2 => rfl
    | succ i2 =>
      cases j with
      | zero => rfl
      | succ j2 =>
        simp only [updateAt, List.getD_cons_succ]
        exact ih i2 j2 (by omega)

/-- Claim C7: for every state, every in-range shard id whose active counter
is positive (as the start-before-end protocol guarantees) and below the
uint64 wrap, `record_request_end(id, latency, success)` sets the shard's
average latency to `0.9 * old + 0.1 * latency`, decrements its active
counter by one, increments its error count exactly when `success` is
false, and leaves every other shard untouched. -/
theorem recordRequestEnd_spec (shards : List ShardStats) (i : Nat)
    (latency : ℚ) (success : Bool) (hi : i < shards.length)
    (hact : 1 ≤ (statsAt shards i).active_requests)
    (hwrap : (statsAt shards i).active_requests < 2 ^ 64) :
    (recordRequestEnd shards i latency success).length = shards.length ∧
    (statsAt (recordRequestEnd shards i latency success) i).avg_latency_ms =
      (9 / 10) * (statsAt shards i).avg_latency_ms + (1 / 10) * latency ∧
    (statsAt (recordRequestEnd shards i latency success) i).active_requests =
      (statsAt shards i).active_requests - 1 ∧
    (statsAt (recordRequestEnd shards i latency success) i).error_count =
      (if success then (statsAt shards i).error_count
       else (statsAt shards i).error_count + 1) ∧
    (∀ j, j ≠ i →
      statsAt (recordRequestEnd shards i latency success) j =
        statsAt shards j) := by
  have hupd : statsAt (recordRequestEnd shards i latency success) i =
      { statsAt shards i with
        active_requests :=
          ((statsAt shards i).active_requests + (2 ^ 64 - 1)) % 2 ^ 64,
        avg_latency_ms :=
          (statsAt shards i).avg_latency_ms * (9 / 10) + latency * (1 / 10),
        error_count :=
          if success then (statsAt shards i).error_count
          else (statsAt shards i).error_count + 1 } := by
    unfold recordRequestEnd statsAt
    exact getD_updateAt_self i _ shards _ hi
  refine ⟨length_updateAt i _ shards, ?_, ?_, ?_, ?_⟩
  · rw [hupd]; ring
  · rw [hupd]
    show ((statsAt shards i).active_requests + (2 ^ 64 - 1)) % 2 ^ 64 =
      (statsAt shards i).active_requests - 1
    omega
  · rw [hupd]
  · intro j hj
    unfold recordRequestEnd statsAt
    exact getD_updateAt_ne i j _ shards _ hj

/-- Witness for C7: a single shard with average latency 10.0 and one active
request; `record_request_end(0, 20.0, true)` yields average latency 11.0
and zero active requests. -/
theorem recordRequestEnd_spec_witness :
    (statsAt (recordRequestEnd [⟨0, 1, 1, 10, 0⟩] 0 20 true) 0).avg_latency_ms
        = 11 ∧
      (statsAt (recordRequestEnd [⟨0, 1, 1, 10, 0⟩] 0 20 true) 0).active_requests
        = 0 := by
  have h := recordRequestEnd_spec [⟨0, 1, 1, 10, 0⟩] 0 20 true
    (by decide) (by decide) (by decide)
  constructor
  · rw [h.2.1]
    show (9 / 10 : ℚ) * (statsAt [⟨0, 1, 1, 10, 0⟩] 0).avg_latency_ms +
      (1 / 10) * 20 = 11
    norm_num [statsAt]
  · rw [h.2.2.1]; decide
